import Mathlib

/-!
Shallow embedding of direncrypt's `DirEncryption` class
(`lib/direncrypt/direncryption.py`).

Python strings are modelled as `List Char`, Python dicts (and the SQLite
register table) as association lists, timestamps as `Nat` (the spec's
"seconds, integer-comparable" watermark), and every call to an external
collaborator (`GPGOps`, `FileOps`, `Inventory` mutations, `logging`) as an
emitted event in a trace.  A Python exception raised by the GPG encrypt
collaborator is modelled as `Except.error`, carrying the state and trace at
the moment of the raise.
-/

/-- Python strings: sequences of characters. -/
abbrev Str := List Char

/-- One row of the register, as returned by `Inventory.read_all_register`:
fields `unencrypted_file` (also the dict key), `encrypted_file`,
`public_id`, `is_link` and `target`. -/
structure RegRecord where
  unencrypted_file : Str
  encrypted_file : Str
  public_id : Str
  is_link : Bool
  target : Option Str
deriving DecidableEq, Repr

/-- The register table: a mapping keyed by relative plaintext path
(one row per path), modelled as an association list. -/
abbrev Register := List (Str × RegRecord)

/-- Dict lookup on the register (`relative_path in register`,
`register[path]`). -/
def lookupReg : Register → Str → Option RegRecord
  | [], _ => none
  | (q, r) :: rest, p => if q = p then some r else lookupReg rest p

/-- Remove every row keyed by `p`. -/
def removeKey : Register → Str → Register
  | [], _ => []
  | (q, r) :: rest, p =>
      if q = p then removeKey rest p else (q, r) :: removeKey rest p

/-- Modelled from the spec: `Registry.upsert` "replaces any existing row for
`path`" (`Inventory.register` is not under src/). -/
def upsertReg (reg : Register) (p : Str) (r : RegRecord) : Register :=
  removeKey reg p ++ [(p, r)]

/-- Modelled from the spec: `Registry.remove` "deletes the row for `path` if
present; no-op otherwise" (`Inventory.clean_record` is not under src/). -/
def clean_record (reg : Register) (p : Str) : Register :=
  removeKey reg p

/-- Persistent inventory state: the register rows plus the stored watermark
(`last_timestamp`). -/
structure Store where
  register : Register
  lastTimestamp : Nat
deriving DecidableEq, Repr

/-- The parameter store read by `Inventory.read_parameters`. -/
structure ParamsStore where
  last_timestamp : Nat
  plaindir : Str
  securedir : Str
  public_id : Str
  gpg_keyring : Str
  gpg_homedir : Str
  gpg_binary : Str
deriving DecidableEq, Repr

/-- Parsed command-line arguments (each override optional; `none` models a
Python `None`). -/
structure Args where
  verbose : Bool
  plaindir : Option Str
  securedir : Option Str
  public_id : Option Str
  gpg_keyring : Option Str
  gpg_homedir : Option Str
  gpg_binary : Option Str
deriving DecidableEq, Repr

/-- The resolved instance attributes set by `set_parameters`. -/
structure Config where
  verbose : Bool
  last_timestamp : Nat
  plaindir : Str
  securedir : Str
  public_id : Str
  gpg_keyring : Str
  gpg_homedir : Str
  gpg_binary : Str
deriving DecidableEq, Repr

/-- Python truthiness of an optional string: `None` and the empty string are
falsy, any non-empty string is truthy. -/
def truthy : Option Str → Bool
  | none => false
  | some s => !s.isEmpty

/-- Model of `set_parameters` (lines 57-92): read defaults from the parameter store
(tilde-expanding the path-like ones), then apply each truthy caller
override.  `expanduser` abstracts `os.path.expanduser`.  The whole `args`
object may be `None` (lines 78-79), in which case the store defaults stand. -/
def set_parameters (expanduser : Str → Str) (params : ParamsStore)
    (args : Option Args) : Config :=
  let verbose := match args with
    | some a => a.verbose
    | none => false
  let base : Config :=
    { verbose := verbose
      last_timestamp := params.last_timestamp
      plaindir := expanduser params.plaindir
      securedir := expanduser params.securedir
      public_id := params.public_id
      gpg_keyring := params.gpg_keyring
      gpg_homedir := expanduser params.gpg_homedir
      gpg_binary := expanduser params.gpg_binary }
  match args with
  | none => base
  | some a =>
      { base with
        plaindir := if truthy a.plaindir then expanduser (a.plaindir.getD [])
                    else base.plaindir
        securedir := if truthy a.securedir then expanduser (a.securedir.getD [])
                     else base.securedir
        public_id := if truthy a.public_id then a.public_id.getD []
                     else base.public_id
        gpg_keyring := if truthy a.gpg_keyring then a.gpg_keyring.getD []
                       else base.gpg_keyring
        gpg_homedir := if truthy a.gpg_homedir then expanduser (a.gpg_homedir.getD [])
                       else base.gpg_homedir
        gpg_binary := if truthy a.gpg_binary then expanduser (a.gpg_binary.getD [])
                      else base.gpg_binary }

/-- Model of `os.path.join(dir, name)` for a relative `name`: inserts a separator
unless `dir` already ends with one. -/
def joinPath (dir name : Str) : Str :=
  if dir.getLast? = some '/' then dir ++ name else dir ++ '/' :: name

/-- Lines 194 and 239: `relative_path = filepath[(len(self.plaindir) + 1):]`. -/
def relative_path_of (plaindir filepath : Str) : Str :=
  filepath.drop (plaindir.length + 1)

/-- A filesystem entry seen by the `os.walk` pass of
`find_unencrypted_files`, already reduced to its relative path (the raw
slice is analysed separately via `relative_path_of`), its `st_mtime` in
integral seconds, and whether `os.path.islink` holds for it. -/
structure FSFile where
  path : Str
  mtime : Nat
  isLink : Bool
deriving DecidableEq, Repr

/-- A symlink collected by the two walks of `find_unregistered_links`:
relative path, `lstat` mtime, and `os.readlink` target. -/
structure LinkEntry where
  path : Str
  mtime : Nat
  linkto : Str
deriving DecidableEq, Repr

/-- Model of `find_unencrypted_files` (lines 172-210): skip symlinks; an unregistered
path is new (`is_new = True`); a registered path whose mtime strictly
exceeds `self.last_timestamp` has changed (`is_new = False`); otherwise the
entry is left out of the returned dict. -/
def find_unencrypted_files (register : Register) (last_timestamp : Nat)
    (walk : List FSFile) : List (Str × Bool) :=
  walk.filterMap fun f =>
    if f.isLink then none
    else if lookupReg register f.path = none then some (f.path, true)
    else if f.mtime > last_timestamp then some (f.path, false)
    else none

/-- Model of `find_unregistered_links` (lines 212-255): classify every collected
symlink against the register and the watermark, returning relative path,
target and `is_new`. -/
def find_unregistered_links (register : Register) (last_timestamp : Nat)
    (links : List LinkEntry) : List (Str × Str × Bool) :=
  links.filterMap fun l =>
    if lookupReg register l.path = none then some (l.path, l.linkto, true)
    else if l.mtime > last_timestamp then some (l.path, l.linkto, false)
    else none

/-- Observable effects of a run: calls to `Inventory` mutators, `FileOps`,
the GPG collaborator and the logger. -/
inductive Event where
  | updateLastTimestamp (t : Nat)
  | deleteFile (securedir encfile : Str)
  | gpgEncrypt (plain_path encrypted_path : Str)
  | registerRow (plainfile encfile pubId : Str) (isLink : Bool) (target : Option Str)
  | cleanRecordEv (plainfile : Str)
  | gpgDecrypt (encrypted_path plain_path : Str)
  | warnDecrypt (encfile : Str)
  | createSymlink (target plain_path : Str)
deriving DecidableEq, Repr

/-- Model of `encrypt` (lines 128-136): gpg-encrypt regular files (symlinks skip the
collaborator entirely), then register the pair.  `encOk plainfile` models
whether the external `gpg.encrypt` call succeeds; a failure raises, modelled
as `Except.error` carrying the events up to and including the attempt. -/
def encryptStep (cfg : Config) (encOk : Str → Bool) (plainfile encfile : Str)
    (is_link : Bool) (target : Option Str) (reg : Register) :
    Except (List Event) (Register × List Event) :=
  let plain_path := joinPath cfg.plaindir plainfile
  let encrypted_path := joinPath cfg.securedir encfile
  if is_link then
    .ok (upsertReg reg plainfile ⟨plainfile, encfile, cfg.public_id, is_link, target⟩,
         [Event.registerRow plainfile encfile cfg.public_id is_link target])
  else if encOk plainfile then
    .ok (upsertReg reg plainfile ⟨plainfile, encfile, cfg.public_id, is_link, target⟩,
         [Event.gpgEncrypt plain_path encrypted_path,
          Event.registerRow plainfile encfile cfg.public_id is_link target])
  else
    .error [Event.gpgEncrypt plain_path encrypted_path]

/-- The regular-file loop of `encrypt_all` (lines 109-117).  `names k`
models the `k`-th `generate_name()` result (a fresh `uuid.uuid4()` string);
`reg` is the live register threaded through `inv`; for a changed file the
old encrypted name is read back from the live register
(`read_line_from_register`) and its blob deleted before re-encryption.
An exception aborts the loop, carrying the events so far. -/
def encryptFilesLoop (cfg : Config) (encOk : Str → Bool) (names : Nat → Str) :
    List (Str × Bool) → Nat → Register →
    Except (Register × List Event) (Register × List Event × Nat)
  | [], k, reg => .ok (reg, [], k)
  | (plainfile, isNew) :: rest, k, reg =>
    let dels : List Event :=
      if isNew then []
      else
        [Event.deleteFile cfg.securedir
          ((lookupReg reg plainfile).elim [] RegRecord.encrypted_file)]
    match encryptStep cfg encOk plainfile (names k) false none reg with
    | .error evs => .error (reg, dels ++ evs)
    | .ok (reg2, evs) =>
      match encryptFilesLoop cfg encOk names rest (k + 1) reg2 with
      | .error (r, evs2) => .error (r, dels ++ evs ++ evs2)
      | .ok (r, evs2, k') => .ok (r, dels ++ evs ++ evs2, k')

/-- The symlink loop of `encrypt_all` (lines 119-126): a previously
registered link first has its stale row removed (`clean_record`); then
`encrypt(link_name, '', inv, True, target)` runs, which for a link reduces
to a register upsert with an empty encrypted name — no GPG call, no blob
deletion. -/
def encryptLinksLoop (cfg : Config) :
    List (Str × Str × Bool) → Register → Register × List Event
  | [], reg => (reg, [])
  | (link_name, target, isNew) :: rest, reg =>
    let cleaned : Register × List Event :=
      if isNew then (reg, [])
      else (clean_record reg link_name, [Event.cleanRecordEv link_name])
    let reg2 := upsertReg cleaned.1 link_name
      ⟨link_name, [], cfg.public_id, true, some target⟩
    let evs2 := [Event.registerRow link_name [] cfg.public_id true (some target)]
    let done := encryptLinksLoop cfg rest reg2
    (done.1, cleaned.2 ++ evs2 ++ done.2)

/-- Model of `encrypt_all` (lines 94-126): snapshot the register, advance the stored
watermark to `now` (`Inventory.update_last_timestamp`, modelled from the
spec: "sets watermark to current wall-clock time"), classify regular files
against the snapshot using `self.last_timestamp` — the value
`set_parameters` read from the store at construction, held in
`cfg.last_timestamp` — process them, then classify and process symlinks.
`walkFiles`/`walkLinks` abstract the filesystem walks.  A raised GPG error
escapes the loops as `Except.error` with the state and trace at that point. -/
def encrypt_all (cfg : Config) (encOk : Str → Bool) (names : Nat → Str)
    (now : Nat) (walkFiles : List FSFile) (walkLinks : List LinkEntry)
    (st : Store) : Except (Store × List Event) (Store × List Event) :=
  let register := st.register
  let files := find_unencrypted_files register cfg.last_timestamp walkFiles
  match encryptFilesLoop cfg encOk names files 0 register with
  | .error (reg, evs) =>
      .error (⟨reg, now⟩, Event.updateLastTimestamp now :: evs)
  | .ok (reg, evs, _) =>
      let links := find_unregistered_links register cfg.last_timestamp walkLinks
      let done := encryptLinksLoop cfg links reg
      .ok (⟨done.1, now⟩, Event.updateLastTimestamp now :: (evs ++ done.2))

/-- Model of `decrypt_all` (lines 138-162): iterate over every register row; skip
rows registered under a different `public_id`; decrypt regular files,
catching a per-item `IOError` (modelled by `decOk` returning `false`) with a
logged warning; recreate symlinks from `target` with no GPG call. -/
def decrypt_all (cfg : Config) (decOk : Str → Bool) : Register → List Event
  | [] => []
  | (_, record) :: rest =>
    let evs :=
      if record.public_id ≠ cfg.public_id then []
      else if record.is_link = false then
        let encrypted_path := joinPath cfg.securedir record.encrypted_file
        let plain_path := joinPath cfg.plaindir record.unencrypted_file
        if decOk record.encrypted_file then
          [Event.gpgDecrypt encrypted_path plain_path]
        else
          [Event.gpgDecrypt encrypted_path plain_path,
           Event.warnDecrypt record.encrypted_file]
      else
        [Event.createSymlink (record.target.getD [])
          (joinPath cfg.plaindir record.unencrypted_file)]
    evs ++ decrypt_all cfg decOk rest

/-- Events of a (possibly aborted) `encrypt_all` run. -/
def evsOf : Except (Store × List Event) (Store × List Event) → List Event
  | .error (_, evs) => evs
  | .ok (_, evs) => evs

/-- Store left behind by a (possibly aborted) `encrypt_all` run. -/
def storeOf : Except (Store × List Event) (Store × List Event) → Store
  | .error (st, _) => st
  | .ok (st, _) => st

/-- Is this a warning log event? -/
def isWarnEv : Event → Bool
  | .warnDecrypt _ => true
  | _ => false

/-- Is this a GPG-encrypt call or a ciphertext-blob deletion? -/
def isEncryptOrDeleteEv : Event → Bool
  | .gpgEncrypt _ _ => true
  | .deleteFile _ _ => true
  | _ => false

/-- Does this event register a row for path `p`? -/
def registersPath (p : Str) : Event → Bool
  | .registerRow q _ _ _ _ => q = p
  | _ => false

/-! ## Basic register lemmas -/

theorem lookupReg_append (l₁ l₂ : Register) (p : Str) :
    lookupReg (l₁ ++ l₂) p =
      match lookupReg l₁ p with
      | some r => some r
      | none => lookupReg l₂ p := by
  induction l₁ with
  | nil => simp [lookupReg]
  | cons hd tl ih =>
    obtain ⟨q, r⟩ := hd
    by_cases h : q = p <;> simp [lookupReg, h, ih]

theorem lookupReg_removeKey_self (reg : Register) (p : Str) :
    lookupReg (removeKey reg p) p = none := by
  induction reg with
  | nil => simp [removeKey, lookupReg]
  | cons hd tl ih =>
    obtain ⟨q, r⟩ := hd
    by_cases h : q = p <;> simp [removeKey, lookupReg, h, ih]

theorem lookupReg_removeKey_ne (reg : Register) (p q : Str) (h : q ≠ p) :
    lookupReg (removeKey reg p) q = lookupReg reg q := by
  have hpq : ¬ p = q := fun he => h he.symm
  induction reg with
  | nil => simp [removeKey]
  | cons hd tl ih =>
    obtain ⟨x, r⟩ := hd
    by_cases hx : x = p
    · simp [removeKey, lookupReg, hx, hpq, ih]
    · by_cases hq : x = q <;> simp [removeKey, lookupReg, hx, hq, h, ih]

theorem lookupReg_upsert_self (reg : Register) (p : Str) (r : RegRecord) :
    lookupReg (upsertReg reg p r) p = some r := by
  simp [upsertReg, lookupReg_append, lookupReg_removeKey_self, lookupReg]

theorem lookupReg_upsert_ne (reg : Register) (p q : Str) (r : RegRecord)
    (h : q ≠ p) : lookupReg (upsertReg reg p r) q = lookupReg reg q := by
  have hpq : ¬ p = q := fun he => h he.symm
  simp [upsertReg, lookupReg_append, lookupReg_removeKey_ne reg p q h]
  cases hl : lookupReg reg q with
  | none => simp [lookupReg, hpq]
  | some v => simp

/-! ## Claim C9: relative-path computation -/

/-- C9 counterexample: the same file (relative path `a`) walked under the
plaintext root written as `/r` versus `/r/` yields different results of the
slice `filepath[(len(plaindir) + 1):]` — the computation is not stable under
a trailing separator in the configured root. -/
theorem claim_C9_counterexample :
    relative_path_of ['/', 'r'] (joinPath ['/', 'r'] ['a']) = ['a']
    ∧ relative_path_of ['/', 'r', '/'] (joinPath ['/', 'r', '/'] ['a']) = []
    ∧ relative_path_of ['/', 'r'] (joinPath ['/', 'r'] ['a'])
        ≠ relative_path_of ['/', 'r', '/'] (joinPath ['/', 'r', '/'] ['a']) := by
  decide

/-- C9 (amended): the relative path of a walked entry is computed by
dropping `len(plaindir) + 1` characters from the absolute walked path; when
the configured plaintext root does not end in a path separator this
recovers exactly the entry's root-relative path.  (With a trailing
separator the slice additionally drops leading characters of the relative
path, as the counterexample shows.) -/
theorem claim_C9_amended (root rel : Str) (h : root.getLast? ≠ some '/') :
    relative_path_of root (joinPath root rel) = rel := by
  unfold relative_path_of joinPath
  rw [if_neg h]
  have hsplit : root ++ '/' :: rel = (root ++ ['/']) ++ rel := by simp
  have hlen : root.length + 1 = (root ++ ['/']).length := by simp
  rw [hsplit, hlen, List.drop_left]

/-- C9 witness: a concrete root with no trailing separator. -/
theorem claim_C9_amended_witness :
    relative_path_of ['/', 'p'] (joinPath ['/', 'p'] ['a', '.', 't']) =
      ['a', '.', 't'] :=
  claim_C9_amended ['/', 'p'] ['a', '.', 't'] (by decide)

/-! ## Claim C10: parameter overrides -/

/-- C10: in `set_parameters`, each caller-supplied override replaces the
parameter-store default only when it is truthy; a `None` or empty-string
override is ignored and the value resolved from the parameter store (the
`args is None` resolution) is kept. -/
theorem claim_C10 (exp : Str → Str) (params : ParamsStore) (a : Args) :
    ((set_parameters exp params (some a)).plaindir =
      if truthy a.plaindir then exp (a.plaindir.getD [])
      else (set_parameters exp params none).plaindir)
    ∧ ((set_parameters exp params (some a)).securedir =
      if truthy a.securedir then exp (a.securedir.getD [])
      else (set_parameters exp params none).securedir)
    ∧ ((set_parameters exp params (some a)).public_id =
      if truthy a.public_id then a.public_id.getD []
      else (set_parameters exp params none).public_id)
    ∧ ((set_parameters exp params (some a)).gpg_keyring =
      if truthy a.gpg_keyring then a.gpg_keyring.getD []
      else (set_parameters exp params none).gpg_keyring)
    ∧ ((set_parameters exp params (some a)).gpg_homedir =
      if truthy a.gpg_homedir then exp (a.gpg_homedir.getD [])
      else (set_parameters exp params none).gpg_homedir)
    ∧ ((set_parameters exp params (some a)).gpg_binary =
      if truthy a.gpg_binary then exp (a.gpg_binary.getD [])
      else (set_parameters exp params none).gpg_binary) := by
  unfold set_parameters
  refine ⟨rfl, rfl, rfl, rfl, rfl, rfl⟩

/-! ## Claim C7: recipient isolation in decrypt_all -/

/-- C7: `decrypt_all` touches only rows whose `public_id` equals the
configured identity — its whole event trace is unchanged when the rows
belonging to other recipients are removed from the register, so no decrypt
call and no symlink creation ever arises from another recipient's row. -/
theorem claim_C7 (cfg : Config) (decOk : Str → Bool) (register : Register) :
    decrypt_all cfg decOk register =
      decrypt_all cfg decOk
        (register.filter fun pr => decide (pr.2.public_id = cfg.public_id)) := by
  induction register with
  | nil => rfl
  | cons hd tl ih =>
    obtain ⟨p, record⟩ := hd
    by_cases h : record.public_id = cfg.public_id <;>
      simp [decrypt_all, List.filter_cons, h, ih]

/-! ## Claim C6: per-item decrypt failure tolerance -/

theorem isWarnEv_warn (s : Str) : isWarnEv (Event.warnDecrypt s) = true := rfl

theorem isWarnEv_dec (a b : Str) : isWarnEv (Event.gpgDecrypt a b) = false := rfl

theorem isWarnEv_sym (a b : Str) : isWarnEv (Event.createSymlink a b) = false := rfl

/-- C6: during `decrypt_all` a per-row decrypt I/O failure is caught at the
row boundary: the non-warning part of the trace is exactly the trace of an
all-successful run (every remaining row is still processed), and a warning
is logged precisely for each matching regular-file row whose decrypt call
failed. -/
theorem claim_C6 (cfg : Config) (decOk : Str → Bool) (register : Register) :
    ((decrypt_all cfg decOk register).filter fun e => !(isWarnEv e)) =
        decrypt_all cfg (fun _ => true) register
    ∧ (decrypt_all cfg decOk register).filter isWarnEv =
        register.filterMap (fun pr =>
          if pr.2.public_id = cfg.public_id ∧ pr.2.is_link = false
              ∧ decOk pr.2.encrypted_file = false
          then some (Event.warnDecrypt pr.2.encrypted_file) else none) := by
  induction register with
  | nil => exact ⟨rfl, rfl⟩
  | cons hd tl ih =>
    obtain ⟨p, record⟩ := hd
    obtain ⟨ih1, ih2⟩ := ih
    refine ⟨?_, ?_⟩ <;>
    · by_cases h : record.public_id = cfg.public_id <;>
        by_cases hl : record.is_link = false <;>
        by_cases hdk : decOk record.encrypted_file = true <;>
        simp [decrypt_all, h, hl, hdk, List.filter_append, List.filter_cons,
          List.filterMap_cons, isWarnEv_warn, isWarnEv_dec, isWarnEv_sym,
          ih1, ih2]

/-! ## Claim C8: symlink entries -/

theorem encryptLinksLoop_all_events (cfg : Config) :
    ∀ (links : List (Str × Str × Bool)) (reg : Register),
    ((encryptLinksLoop cfg links reg).2.all fun ev => !(isEncryptOrDeleteEv ev))
      = true
  | [], _ => rfl
  | (ln, tg, isN) :: tl, reg => by
    have ih := encryptLinksLoop_all_events cfg tl
      (upsertReg (if isN then reg else clean_record reg ln) ln
        ⟨ln, [], cfg.public_id, true, some tg⟩)
    cases isN <;>
      simpa [encryptLinksLoop, List.all_append, isEncryptOrDeleteEv] using ih

/-- C8: symlink processing in `encrypt_all` never invokes the encrypt
collaborator and never deletes a ciphertext blob; each link is committed
with `is_link = true`, an empty encrypted name and the link's current
target, with a previously registered (changed) link having only its stale
register row removed first; and `decrypt_all` restores a link row by
recreating a symlink at the original relative path pointing at the stored
target, with no decrypt-collaborator call. -/
theorem claim_C8 (cfg : Config) (links : List (Str × Str × Bool))
    (reg reg1 : Register) (link_name target : Str) (isNew : Bool)
    (decOk : Str → Bool) (u e t : Str) :
    ((encryptLinksLoop cfg links reg).2.all fun ev => !(isEncryptOrDeleteEv ev))
        = true
    ∧ encryptLinksLoop cfg [(link_name, target, isNew)] reg1 =
        (upsertReg (if isNew then reg1 else clean_record reg1 link_name)
           link_name ⟨link_name, [], cfg.public_id, true, some target⟩,
         (if isNew then [] else [Event.cleanRecordEv link_name]) ++
           [Event.registerRow link_name [] cfg.public_id true (some target)])
    ∧ decrypt_all cfg decOk [(u, ⟨u, e, cfg.public_id, true, some t⟩)] =
        [Event.createSymlink t (joinPath cfg.plaindir u)] := by
  refine ⟨encryptLinksLoop_all_events cfg links reg, ?_, ?_⟩
  · cases isNew <;> rfl
  · simp [decrypt_all]

/-! ## Claim C4: watermark advance ordering -/

/-- C4: `encrypt_all` advances the stored watermark first — the advance is
the head of the event trace, before any scan-derived event — while every
mtime comparison uses `cfg.last_timestamp`, the pre-advance value captured
by `set_parameters`: the entire remaining trace and the resulting register
are independent of the advanced value `now`, and the whole run is
independent of the watermark currently stored in the inventory (`ts`),
which is only overwritten. -/
theorem claim_C4 (cfg : Config) (encOk : Str → Bool) (names : Nat → Str)
    (now now' ts ts' : Nat) (walkFiles : List FSFile)
    (walkLinks : List LinkEntry) (reg : Register) :
    (evsOf (encrypt_all cfg encOk names now walkFiles walkLinks ⟨reg, ts⟩)).head?
        = some (Event.updateLastTimestamp now)
    ∧ (evsOf (encrypt_all cfg encOk names now walkFiles walkLinks ⟨reg, ts⟩)).tail
        = (evsOf (encrypt_all cfg encOk names now' walkFiles walkLinks ⟨reg, ts⟩)).tail
    ∧ (storeOf (encrypt_all cfg encOk names now walkFiles walkLinks ⟨reg, ts⟩)).register
        = (storeOf (encrypt_all cfg encOk names now' walkFiles walkLinks ⟨reg, ts⟩)).register
    ∧ encrypt_all cfg encOk names now walkFiles walkLinks ⟨reg, ts⟩
        = encrypt_all cfg encOk names now walkFiles walkLinks ⟨reg, ts'⟩ := by
  unfold encrypt_all
  cases h : encryptFilesLoop cfg encOk names
      (find_unencrypted_files reg cfg.last_timestamp walkFiles) 0 reg with
  | error pr => obtain ⟨r, evs⟩ := pr; simp [h, evsOf, storeOf]
  | ok pr => obtain ⟨r, evs, k⟩ := pr; simp [h, evsOf, storeOf]

/-! ## Claim C1: regular-file classification -/

/-- C1: for every regular (non-symlink) file walked under the plaintext
root (with walk paths pairwise distinct, as produced by a directory walk):
a path absent from the register snapshot is returned as unseen
(`is_new = true`); a present path whose mtime strictly exceeds the
watermark is returned as changed (`is_new = false`); a present path whose
mtime does not exceed the watermark is omitted from the returned set. -/
theorem claim_C1 (register : Register) (wm : Nat) (walk : List FSFile)
    (hnd : (walk.map FSFile.path).Nodup) (f : FSFile) (hf : f ∈ walk)
    (hlink : f.isLink = false) :
    (lookupReg register f.path = none →
        (f.path, true) ∈ find_unencrypted_files register wm walk)
    ∧ (lookupReg register f.path ≠ none → wm < f.mtime →
        (f.path, false) ∈ find_unencrypted_files register wm walk)
    ∧ (lookupReg register f.path ≠ none → f.mtime ≤ wm →
        ∀ b, (f.path, b) ∉ find_unencrypted_files register wm walk) := by
  refine ⟨?_, ?_, ?_⟩
  · intro hnone
    exact List.mem_filterMap.mpr ⟨f, hf, by simp [hlink, hnone]⟩
  · intro hsome hm
    exact List.mem_filterMap.mpr ⟨f, hf, by simp [hlink, hsome, hm]⟩
  · intro hsome hm b hmem
    obtain ⟨g, hg, hgc⟩ := List.mem_filterMap.mp hmem
    have hpath : g.path = f.path := by
      by_cases h1 : g.isLink
      · simp [h1] at hgc
      · by_cases h2 : lookupReg register g.path = none
        · simp [h1, h2] at hgc
          exact hgc.1
        · by_cases h3 : g.mtime > wm
          · simp [h1, h2, h3] at hgc
            exact hgc.1
          · simp [h1, h2, h3] at hgc
    have hgf : g = f := List.inj_on_of_nodup_map hnd hg hf hpath
    subst hgf
    have hgt : ¬ (g.mtime > wm) := by omega
    simp [hlink, hsome, hgt] at hgc

/-- C1 witness: a two-file walk against a one-row register with watermark 5.
The unregistered file is returned unseen, a registered fresh file is
returned changed, and a registered stale file is omitted. -/
theorem claim_C1_witness :
    ((lookupReg [(['a'], ⟨['a'], ['x'], ['m'], false, none⟩)] ['b'] = none →
        (['b'], true) ∈ find_unencrypted_files
          [(['a'], ⟨['a'], ['x'], ['m'], false, none⟩)] 5
          [⟨['a'], 3, false⟩, ⟨['b'], 9, false⟩])
    ∧ (lookupReg [(['a'], ⟨['a'], ['x'], ['m'], false, none⟩)] ['b'] ≠ none →
        5 < 9 →
        (['b'], false) ∈ find_unencrypted_files
          [(['a'], ⟨['a'], ['x'], ['m'], false, none⟩)] 5
          [⟨['a'], 3, false⟩, ⟨['b'], 9, false⟩])
    ∧ (lookupReg [(['a'], ⟨['a'], ['x'], ['m'], false, none⟩)] ['b'] ≠ none →
        9 ≤ 5 →
        ∀ b, (['b'], b) ∉ find_unencrypted_files
          [(['a'], ⟨['a'], ['x'], ['m'], false, none⟩)] 5
          [⟨['a'], 3, false⟩, ⟨['b'], 9, false⟩]))
    ∧ ((lookupReg [(['a'], ⟨['a'], ['x'], ['m'], false, none⟩)] ['a'] = none →
        (['a'], true) ∈ find_unencrypted_files
          [(['a'], ⟨['a'], ['x'], ['m'], false, none⟩)] 5
          [⟨['a'], 3, false⟩, ⟨['b'], 9, false⟩])
    ∧ (lookupReg [(['a'], ⟨['a'], ['x'], ['m'], false, none⟩)] ['a'] ≠ none →
        5 < 3 →
        (['a'], false) ∈ find_unencrypted_files
          [(['a'], ⟨['a'], ['x'], ['m'], false, none⟩)] 5
          [⟨['a'], 3, false⟩, ⟨['b'], 9, false⟩])
    ∧ (lookupReg [(['a'], ⟨['a'], ['x'], ['m'], false, none⟩)] ['a'] ≠ none →
        3 ≤ 5 →
        ∀ b, (['a'], b) ∉ find_unencrypted_files
          [(['a'], ⟨['a'], ['x'], ['m'], false, none⟩)] 5
          [⟨['a'], 3, false⟩, ⟨['b'], 9, false⟩])) :=
  ⟨claim_C1 [(['a'], ⟨['a'], ['x'], ['m'], false, none⟩)] 5
      [⟨['a'], 3, false⟩, ⟨['b'], 9, false⟩] (by decide)
      ⟨['b'], 9, false⟩ (by decide) (by decide),
   claim_C1 [(['a'], ⟨['a'], ['x'], ['m'], false, none⟩)] 5
      [⟨['a'], 3, false⟩, ⟨['b'], 9, false⟩] (by decide)
      ⟨['a'], 3, false⟩ (by decide) (by decide)⟩

/-! ## encryptFilesLoop unfolding and register-key lemmas -/

theorem encryptFilesLoop_cons_ok (cfg : Config) (encOk : Str → Bool)
    (names : Nat → Str) (plainfile : Str) (isNew : Bool)
    (rest : List (Str × Bool)) (k : Nat) (reg : Register)
    (h : encOk plainfile = true) :
    encryptFilesLoop cfg encOk names ((plainfile, isNew) :: rest) k reg =
      (match encryptFilesLoop cfg encOk names rest (k + 1)
          (upsertReg reg plainfile
            ⟨plainfile, names k, cfg.public_id, false, none⟩) with
      | .error (r, evs2) =>
          .error (r, (if isNew then [] else
              [Event.deleteFile cfg.securedir
                ((lookupReg reg plainfile).elim [] RegRecord.encrypted_file)]) ++
            [Event.gpgEncrypt (joinPath cfg.plaindir plainfile)
               (joinPath cfg.securedir (names k)),
             Event.registerRow plainfile (names k) cfg.public_id false none] ++ evs2)
      | .ok (r, evs2, k') =>
          .ok (r, (if isNew then [] else
              [Event.deleteFile cfg.securedir
                ((lookupReg reg plainfile).elim [] RegRecord.encrypted_file)]) ++
            [Event.gpgEncrypt (joinPath cfg.plaindir plainfile)
               (joinPath cfg.securedir (names k)),
             Event.registerRow plainfile (names k) cfg.public_id false none] ++ evs2,
            k')) := by
  simp [encryptFilesLoop, encryptStep, h]

theorem encryptFilesLoop_cons_fail (cfg : Config) (encOk : Str → Bool)
    (names : Nat → Str) (plainfile : Str) (isNew : Bool)
    (rest : List (Str × Bool)) (k : Nat) (reg : Register)
    (h : encOk plainfile = false) :
    encryptFilesLoop cfg encOk names ((plainfile, isNew) :: rest) k reg =
      .error (reg, (if isNew then [] else
          [Event.deleteFile cfg.securedir
            ((lookupReg reg plainfile).elim [] RegRecord.encrypted_file)]) ++
        [Event.gpgEncrypt (joinPath cfg.plaindir plainfile)
           (joinPath cfg.securedir (names k))]) := by
  simp [encryptFilesLoop, encryptStep, h]

theorem isSome_lookup_upsert (reg : Register) (p q : Str) (r : RegRecord)
    (h : (lookupReg reg q).isSome = true) :
    (lookupReg (upsertReg reg p r) q).isSome = true := by
  by_cases hpq : q = p
  · subst hpq
    simp [lookupReg_upsert_self]
  · rw [lookupReg_upsert_ne reg p q r hpq]
    exact h

theorem encryptFilesLoop_keys (cfg : Config) (encOk : Str → Bool)
    (names : Nat → Str) :
    ∀ (fs : List (Str × Bool)) (k : Nat) (reg r : Register)
      (evs : List Event) (k' : Nat),
    encryptFilesLoop cfg encOk names fs k reg = .ok (r, evs, k') →
    (∀ q, (lookupReg reg q).isSome = true → (lookupReg r q).isSome = true)
    ∧ (∀ pb ∈ fs, (lookupReg r pb.1).isSome = true)
  | [], k, reg, r, evs, k', hrun => by
    simp [encryptFilesLoop] at hrun
    obtain ⟨h1, _, _⟩ := hrun
    subst h1
    exact ⟨fun q h => h, by simp⟩
  | (plainfile, isNew) :: rest, k, reg, r, evs, k', hrun => by
    by_cases h : encOk plainfile = true
    · rw [encryptFilesLoop_cons_ok cfg encOk names plainfile isNew rest k reg h]
        at hrun
      cases hrec : encryptFilesLoop cfg encOk names rest (k + 1)
          (upsertReg reg plainfile
            ⟨plainfile, names k, cfg.public_id, false, none⟩) with
      | error pr =>
        rw [hrec] at hrun
        obtain ⟨r2, evs2⟩ := pr
        simp at hrun
      | ok pr =>
        obtain ⟨r2, evs2, k2⟩ := pr
        rw [hrec] at hrun
        simp at hrun
        obtain ⟨hr, _, _⟩ := hrun
        subst hr
        obtain ⟨ihmono, ihmem⟩ := encryptFilesLoop_keys cfg encOk names rest
          (k + 1) _ r2 evs2 k2 hrec
        refine ⟨fun q hq => ihmono q (isSome_lookup_upsert _ _ _ _ hq), ?_⟩
        intro pb hpb
        rcases List.mem_cons.mp hpb with he | hm
        · subst he
          exact ihmono plainfile (by simp [lookupReg_upsert_self])
        · exact ihmem pb hm
    · rw [encryptFilesLoop_cons_fail cfg encOk names plainfile isNew rest k reg
        (Bool.not_eq_true _ ▸ (by simpa using h))] at hrun
      simp at hrun

theorem encryptFilesLoop_lookup_not_mem (cfg : Config) (encOk : Str → Bool)
    (names : Nat → Str) (p : Str) :
    ∀ (fs : List (Str × Bool)) (k : Nat) (reg r : Register)
      (evs : List Event) (k' : Nat),
    encryptFilesLoop cfg encOk names fs k reg = .ok (r, evs, k') →
    (∀ pb ∈ fs, pb.1 ≠ p) →
    lookupReg r p = lookupReg reg p
  | [], k, reg, r, evs, k', hrun, _ => by
    simp [encryptFilesLoop] at hrun
    obtain ⟨h1, _, _⟩ := hrun
    subst h1
    rfl
  | (plainfile, isNew) :: rest, k, reg, r, evs, k', hrun, hne => by
    by_cases h : encOk plainfile = true
    · rw [encryptFilesLoop_cons_ok cfg encOk names plainfile isNew rest k reg h]
        at hrun
      cases hrec : encryptFilesLoop cfg encOk names rest (k + 1)
          (upsertReg reg plainfile
            ⟨plainfile, names k, cfg.public_id, false, none⟩) with
      | error pr =>
        rw [hrec] at hrun
        obtain ⟨r2, evs2⟩ := pr
        simp at hrun
      | ok pr =>
        obtain ⟨r2, evs2, k2⟩ := pr
        rw [hrec] at hrun
        simp at hrun
        obtain ⟨hr, _, _⟩ := hrun
        subst hr
        have htl : lookupReg r2 p =
            lookupReg (upsertReg reg plainfile
              ⟨plainfile, names k, cfg.public_id, false, none⟩) p :=
          encryptFilesLoop_lookup_not_mem cfg encOk names p rest (k + 1) _ r2
            evs2 k2 hrec (fun pb hpb => hne pb (List.mem_cons_of_mem _ hpb))
        rw [htl, lookupReg_upsert_ne _ _ _ _
          (fun he => hne (plainfile, isNew) (List.mem_cons_self _ _) he.symm)]
    · rw [encryptFilesLoop_cons_fail cfg encOk names plainfile isNew rest k reg
        (by simpa using h)] at hrun
      simp at hrun

theorem encryptFilesLoop_fail (cfg : Config) (encOk : Str → Bool)
    (names : Nat → Str) :
    ∀ (fs : List (Str × Bool)) (k : Nat) (reg : Register),
    (∃ pb ∈ fs, encOk pb.1 = false) →
    ∃ r evs, encryptFilesLoop cfg encOk names fs k reg = .error (r, evs)
  | [], _, _, hfail => by
    obtain ⟨pb, hpb, _⟩ := hfail
    exact absurd hpb (List.not_mem_nil pb)
  | (plainfile, isNew) :: rest, k, reg, hfail => by
    by_cases h : encOk plainfile = true
    · have hrest : ∃ pb ∈ rest, encOk pb.1 = false := by
        obtain ⟨pb, hpb, hf⟩ := hfail
        rcases List.mem_cons.mp hpb with he | hm
        · rw [he] at hf
          simp [h] at hf
        · exact ⟨pb, hm, hf⟩
      obtain ⟨r2, evs2, herr⟩ := encryptFilesLoop_fail cfg encOk names rest
        (k + 1) (upsertReg reg plainfile
          ⟨plainfile, names k, cfg.public_id, false, none⟩) hrest
      rw [encryptFilesLoop_cons_ok cfg encOk names plainfile isNew rest k reg h,
        herr]
      exact ⟨r2, _, rfl⟩
    · rw [encryptFilesLoop_cons_fail cfg encOk names plainfile isNew rest k reg
        (by simpa using h)]
      exact ⟨reg, _, rfl⟩

theorem encryptLinksLoop_keys (cfg : Config) :
    ∀ (links : List (Str × Str × Bool)) (reg : Register),
    (∀ q, (lookupReg reg q).isSome = true →
      (lookupReg (encryptLinksLoop cfg links reg).1 q).isSome = true)
    ∧ (∀ lt ∈ links, (lookupReg (encryptLinksLoop cfg links reg).1 lt.1).isSome = true)
  | [], reg => ⟨fun _ h => h, by simp⟩
  | (link_name, target, isNew) :: rest, reg => by
    have hmid : ∀ q, (lookupReg reg q).isSome = true →
        (lookupReg (upsertReg (if isNew then reg else clean_record reg link_name)
          link_name ⟨link_name, [], cfg.public_id, true, some target⟩) q).isSome
          = true := by
      intro q hq
      by_cases hql : q = link_name
      · subst hql
        simp [lookupReg_upsert_self]
      · rw [lookupReg_upsert_ne _ _ _ _ hql]
        cases isNew with
        | true => simpa using hq
        | false =>
          simpa [clean_record, lookupReg_removeKey_ne reg link_name q hql] using hq
    obtain ⟨ihmono, ihmem⟩ := encryptLinksLoop_keys cfg rest
      (upsertReg (if isNew then reg else clean_record reg link_name) link_name
        ⟨link_name, [], cfg.public_id, true, some target⟩)
    have hstep : encryptLinksLoop cfg ((link_name, target, isNew) :: rest) reg
        = (let done := encryptLinksLoop cfg rest
            (upsertReg (if isNew then reg else clean_record reg link_name)
              link_name ⟨link_name, [], cfg.public_id, true, some target⟩)
           (done.1, (if isNew then [] else [Event.cleanRecordEv link_name]) ++
             [Event.registerRow link_name [] cfg.public_id true (some target)] ++
             done.2)) := by
      cases isNew <;> rfl
    refine ⟨?_, ?_⟩
    · intro q hq
      rw [hstep]
      exact ihmono q (hmid q hq)
    · intro lt hlt
      rcases List.mem_cons.mp hlt with he | hm
      · subst he
        rw [hstep]
        exact ihmono link_name (by simp [lookupReg_upsert_self])
      · rw [hstep]
        exact ihmem lt hm

theorem find_unencrypted_files_eq_nil (register : Register) (wm : Nat)
    (walk : List FSFile)
    (h : ∀ f ∈ walk, f.isLink = true ∨
      ((lookupReg register f.path).isSome = true ∧ f.mtime ≤ wm)) :
    find_unencrypted_files register wm walk = [] := by
  unfold find_unencrypted_files
  rw [List.filterMap_eq_nil_iff]
  intro f hf
  rcases h f hf with h1 | ⟨h2, h3⟩
  · simp [h1]
  · have hnn : ¬ (lookupReg register f.path = none) := by
      intro hn
      rw [hn] at h2
      simp at h2
    have hgt : ¬ (f.mtime > wm) := by omega
    by_cases hl : f.isLink <;> simp [hl, hnn, hgt]

theorem find_unregistered_links_eq_nil (register : Register) (wm : Nat)
    (links : List LinkEntry)
    (h : ∀ l ∈ links, (lookupReg register l.path).isSome = true ∧ l.mtime ≤ wm) :
    find_unregistered_links register wm links = [] := by
  unfold find_unregistered_links
  rw [List.filterMap_eq_nil_iff]
  intro l hl
  obtain ⟨h2, h3⟩ := h l hl
  have hnn : ¬ (lookupReg register l.path = none) := by
    intro hn
    rw [hn] at h2
    simp at h2
  have hgt : ¬ (l.mtime > wm) := by omega
  simp [hnn, hgt]

/-! ## Claim C3: stale-blob retirement ordering -/

/-- C3: in a successful regular-file pass of `encrypt_all` (walked
classifications with pairwise-distinct paths), a changed entry
(`is_new = false`) contributes a contiguous event block that deletes the old
ciphertext blob recorded for its path *before* the GPG encryption under the
fresh name and before the register commit, while an unseen entry's block
contains no deletion; afterwards the path's register row references exactly
the single fresh ciphertext name. -/
theorem claim_C3 (cfg : Config) (names : Nat → Str) (fs : List (Str × Bool))
    (k : Nat) (reg r : Register) (evs : List Event) (k' : Nat) (p : Str)
    (b : Bool) (hnd : (fs.map Prod.fst).Nodup)
    (hrun : encryptFilesLoop cfg (fun _ => true) names fs k reg
      = .ok (r, evs, k'))
    (hp : (p, b) ∈ fs) :
    ∃ ef l₁ l₂,
      evs = l₁ ++ (if b then [] else
          [Event.deleteFile cfg.securedir
            ((lookupReg reg p).elim [] RegRecord.encrypted_file)]) ++
        [Event.gpgEncrypt (joinPath cfg.plaindir p) (joinPath cfg.securedir ef),
         Event.registerRow p ef cfg.public_id false none] ++ l₂
      ∧ lookupReg r p = some ⟨p, ef, cfg.public_id, false, none⟩ := by
  induction fs generalizing k reg r evs k' with
  | nil => exact absurd hp (List.not_mem_nil _)
  | cons hd rest ih =>
    obtain ⟨q, c⟩ := hd
    have hnd' : (rest.map Prod.fst).Nodup := by
      simp only [List.map_cons, List.nodup_cons] at hnd
      exact hnd.2
    have hq_notin : q ∉ rest.map Prod.fst := by
      simp only [List.map_cons, List.nodup_cons] at hnd
      exact hnd.1
    rw [encryptFilesLoop_cons_ok cfg (fun _ => true) names q c rest k reg rfl]
      at hrun
    cases hrec : encryptFilesLoop cfg (fun _ => true) names rest (k + 1)
        (upsertReg reg q ⟨q, names k, cfg.public_id, false, none⟩) with
    | error pr =>
      rw [hrec] at hrun
      obtain ⟨r2, evs2⟩ := pr
      simp at hrun
    | ok pr =>
      obtain ⟨r2, evs2, k2⟩ := pr
      rw [hrec] at hrun
      simp at hrun
      obtain ⟨hr, hevs, hk⟩ := hrun
      subst hr
      rcases List.mem_cons.mp hp with he | hm
      · have hpq : p = q := congrArg Prod.fst he
        have hbc : b = c := congrArg Prod.snd he
        subst hpq
        subst hbc
        have hne : ∀ pb ∈ rest, pb.1 ≠ p := by
          intro pb hpb hcon
          exact hq_notin (hcon ▸ List.mem_map.mpr ⟨pb, hpb, rfl⟩)
        have hpre : lookupReg r2 p =
            lookupReg (upsertReg reg p
              ⟨p, names k, cfg.public_id, false, none⟩) p :=
          encryptFilesLoop_lookup_not_mem cfg (fun _ => true) names p rest
            (k + 1) _ r2 evs2 k2 hrec hne
        refine ⟨names k, [], evs2, ?_, ?_⟩
        · rw [← hevs]
          simp
        · rw [hpre, lookupReg_upsert_self]
      · have hqp : q ≠ p := by
          intro he'
          exact hq_notin (he' ▸ List.mem_map.mpr ⟨(p, b), hm, rfl⟩)
        have hpq : p ≠ q := fun he' => hqp he'.symm
        obtain ⟨ef, l₁, l₂, hevs2, hlook⟩ := ih (k + 1)
          (upsertReg reg q ⟨q, names k, cfg.public_id, false, none⟩) r2 evs2 k2
          hnd' hrec hm
        rw [lookupReg_upsert_ne reg q p
          ⟨q, names k, cfg.public_id, false, none⟩ hpq] at hevs2
        refine ⟨ef, (if c then [] else
            [Event.deleteFile cfg.securedir
              ((lookupReg reg q).elim [] RegRecord.encrypted_file)]) ++
          [Event.gpgEncrypt (joinPath cfg.plaindir q)
             (joinPath cfg.securedir (names k)),
           Event.registerRow q (names k) cfg.public_id false none] ++ l₁,
          l₂, ?_, hlook⟩
        rw [← hevs, hevs2]
        simp [List.append_assoc]

/-- C3 witness: one changed file `a` whose register row holds old blob name
`o`; the run deletes `o` first, then encrypts under the fresh name and
re-registers, leaving the row referencing only the fresh name. -/
theorem claim_C3_witness :
    ∃ ef l₁ l₂,
      [Event.deleteFile ['s'] ['o'],
       Event.gpgEncrypt ['p', '/', 'a'] ['s', '/', 'n'],
       Event.registerRow ['a'] ['n'] ['m'] false none] =
        l₁ ++ (if false then [] else
            [Event.deleteFile ['s']
              ((lookupReg [(['a'], ⟨['a'], ['o'], ['m'], false, none⟩)]
                ['a']).elim [] RegRecord.encrypted_file)]) ++
          [Event.gpgEncrypt
            (joinPath ['p'] ['a']) (joinPath ['s'] ef),
           Event.registerRow ['a'] ef ['m'] false none] ++ l₂
      ∧ lookupReg [(['a'], ⟨['a'], ['n'], ['m'], false, none⟩)] ['a'] =
          some ⟨['a'], ef, ['m'], false, none⟩ :=
  claim_C3 ⟨false, 0, ['p'], ['s'], ['m'], [], [], []⟩ (fun _ => ['n'])
    [(['a'], false)] 0 [(['a'], ⟨['a'], ['o'], ['m'], false, none⟩)]
    [(['a'], ⟨['a'], ['n'], ['m'], false, none⟩)]
    [Event.deleteFile ['s'] ['o'],
     Event.gpgEncrypt ['p', '/', 'a'] ['s', '/', 'n'],
     Event.registerRow ['a'] ['n'] ['m'] false none] 1 ['a'] false
    (by decide) rfl (by decide)

/-! ## Claim C5: encrypt-collaborator failure behaviour -/

/-- Did the run finish normally (no propagated exception)? -/
def isOkE : Except (Store × List Event) (Store × List Event) → Bool
  | .ok _ => true
  | .error _ => false

/-- Test fixture: a resolved configuration. -/
def cfgW : Config := ⟨false, 0, ['p'], ['s'], ['m'], [], [], []⟩

/-- Test fixture: the name generator always yields `n`. -/
def namesW : Nat → Str := fun _ => ['n']

/-- Test fixture: two fresh regular files `a` and `b`. -/
def walkW : List FSFile := [⟨['a'], 3, false⟩, ⟨['b'], 4, false⟩]

/-- Test fixture: the GPG encrypt collaborator raises on file `a`. -/
def encFailA : Str → Bool := fun p => decide (p ≠ ['a'])

/-- C5 counterexample: with files `a` and `b` both classified for
encryption and the collaborator failing on `a`, the run does *not* complete
and `b` — a remaining classified entry — is never encrypted nor registered:
the trace ends at the failed attempt on `a`.  This falsifies the claim that
a failure aborts only the failing entry while the remaining entries are
still processed. -/
theorem claim_C5_counterexample :
    (['b'], true) ∈ find_unencrypted_files [] 0 walkW
    ∧ isOkE (encrypt_all cfgW encFailA namesW 7 walkW [] ⟨[], 0⟩) = false
    ∧ evsOf (encrypt_all cfgW encFailA namesW 7 walkW [] ⟨[], 0⟩) =
        [Event.updateLastTimestamp 7,
         Event.gpgEncrypt ['p', '/', 'a'] ['s', '/', 'n']]
    ∧ ((evsOf (encrypt_all cfgW encFailA namesW 7 walkW [] ⟨[], 0⟩)).all
        fun e => !(registersPath ['b'] e)) = true := by
  refine ⟨by decide, rfl, rfl, rfl⟩

/-- C5 (amended): a failure of the encrypt collaborator on one classified
entry aborts the remainder of the run, not just that entry: the run raises
(returns abnormally), and the symlink phase never executes — the outcome is
entirely independent of the link walk.  Entries processed before the
failure keep their effects; entries after it are never processed. -/
theorem claim_C5_fixed (cfg : Config) (encOk : Str → Bool) (names : Nat → Str)
    (now : Nat) (walkFiles : List FSFile)
    (walkLinks walkLinks' : List LinkEntry) (st : Store)
    (hfail : ∃ pb ∈ find_unencrypted_files st.register cfg.last_timestamp
        walkFiles, encOk pb.1 = false) :
    isOkE (encrypt_all cfg encOk names now walkFiles walkLinks st) = false
    ∧ encrypt_all cfg encOk names now walkFiles walkLinks st
      = encrypt_all cfg encOk names now walkFiles walkLinks' st := by
  obtain ⟨r, evs, herr⟩ := encryptFilesLoop_fail cfg encOk names
    (find_unencrypted_files st.register cfg.last_timestamp walkFiles) 0
    st.register hfail
  unfold encrypt_all
  simp only [herr]
  exact ⟨rfl, trivial⟩

/-- C5 witness: the amended theorem applied at the counterexample input,
with a non-trivial link walk on one side. -/
theorem claim_C5_fixed_witness :
    isOkE (encrypt_all cfgW encFailA namesW 7 walkW
        [⟨['l'], 2, ['t']⟩] ⟨[], 0⟩) = false
    ∧ encrypt_all cfgW encFailA namesW 7 walkW [⟨['l'], 2, ['t']⟩] ⟨[], 0⟩
      = encrypt_all cfgW encFailA namesW 7 walkW [] ⟨[], 0⟩ :=
  claim_C5_fixed cfgW encFailA namesW 7 walkW [⟨['l'], 2, ['t']⟩] [] ⟨[], 0⟩
    ⟨(['a'], true), by decide, by decide⟩

/-! ## Claim C2: second-run idempotence -/

/-- C2: if a first `encrypt_all` run at wall-clock time `now₁` completes,
and nothing on the filesystem changes before a second invocation (same
walks; every mtime at most `now₁`, i.e. nothing was modified after the
first run started), then the second run — whose `set_parameters` re-reads
the watermark the first run stored — produces zero new ciphertext blobs
and zero register mutations: its only event is its own watermark advance,
every walked entry classifying unchanged. -/
theorem claim_C2 (cfg : Config) (names₁ names₂ : Nat → Str) (now₁ now₂ : Nat)
    (walkFiles : List FSFile) (walkLinks : List LinkEntry) (st₀ st₁ : Store)
    (evs₁ : List Event)
    (hmf : ∀ f ∈ walkFiles, f.mtime ≤ now₁)
    (hml : ∀ l ∈ walkLinks, l.mtime ≤ now₁)
    (h1 : encrypt_all cfg (fun _ => true) names₁ now₁ walkFiles walkLinks st₀
        = .ok (st₁, evs₁)) :
    encrypt_all { cfg with last_timestamp := st₁.lastTimestamp }
        (fun _ => true) names₂ now₂ walkFiles walkLinks st₁
      = .ok (⟨st₁.register, now₂⟩, [Event.updateLastTimestamp now₂]) := by
  unfold encrypt_all at h1
  cases hF : encryptFilesLoop cfg (fun _ => true) names₁
      (find_unencrypted_files st₀.register cfg.last_timestamp walkFiles) 0
      st₀.register with
  | error pr =>
    obtain ⟨rE, evsE⟩ := pr
    simp only [hF] at h1
    exact Except.noConfusion h1
  | ok pr =>
    obtain ⟨regF, evsF, kF⟩ := pr
    simp only [hF, Except.ok.injEq, Prod.mk.injEq] at h1
    obtain ⟨hst, hevs⟩ := h1
    subst hst
    obtain ⟨monoF, memF⟩ := encryptFilesLoop_keys cfg (fun _ => true) names₁
      (find_unencrypted_files st₀.register cfg.last_timestamp walkFiles) 0
      st₀.register regF evsF kF hF
    obtain ⟨monoL, memL⟩ := encryptLinksLoop_keys cfg
      (find_unregistered_links st₀.register cfg.last_timestamp walkLinks) regF
    have hfile : ∀ f ∈ walkFiles, f.isLink = true ∨
        ((lookupReg (encryptLinksLoop cfg
          (find_unregistered_links st₀.register cfg.last_timestamp walkLinks)
          regF).1 f.path).isSome = true ∧ f.mtime ≤ now₁) := by
      intro f hf
      by_cases hl : f.isLink = true
      · exact Or.inl hl
      · have hlf : f.isLink = false := by simpa using hl
        refine Or.inr ⟨?_, hmf f hf⟩
        by_cases hn : lookupReg st₀.register f.path = none
        · have hmem : (f.path, true) ∈ find_unencrypted_files st₀.register
              cfg.last_timestamp walkFiles :=
            List.mem_filterMap.mpr ⟨f, hf, by simp [hlf, hn]⟩
          exact monoL f.path (memF (f.path, true) hmem)
        · by_cases hc : f.mtime > cfg.last_timestamp
          · have hmem : (f.path, false) ∈ find_unencrypted_files st₀.register
                cfg.last_timestamp walkFiles :=
              List.mem_filterMap.mpr ⟨f, hf, by simp [hlf, hn, hc]⟩
            exact monoL f.path (memF (f.path, false) hmem)
          · exact monoL f.path (monoF f.path (Option.ne_none_iff_isSome.mp hn))
    have hlink : ∀ l ∈ walkLinks,
        (lookupReg (encryptLinksLoop cfg
          (find_unregistered_links st₀.register cfg.last_timestamp walkLinks)
          regF).1 l.path).isSome = true ∧ l.mtime ≤ now₁ := by
      intro l hl
      refine ⟨?_, hml l hl⟩
      by_cases hn : lookupReg st₀.register l.path = none
      · have hmem : (l.path, l.linkto, true) ∈ find_unregistered_links
            st₀.register cfg.last_timestamp walkLinks :=
          List.mem_filterMap.mpr ⟨l, hl, by simp [hn]⟩
        exact memL (l.path, l.linkto, true) hmem
      · by_cases hc : l.mtime > cfg.last_timestamp
        · have hmem : (l.path, l.linkto, false) ∈ find_unregistered_links
              st₀.register cfg.last_timestamp walkLinks :=
            List.mem_filterMap.mpr ⟨l, hl, by simp [hn, hc]⟩
          exact memL (l.path, l.linkto, false) hmem
        · exact monoL l.path (monoF l.path (Option.ne_none_iff_isSome.mp hn))
    have hfe := find_unencrypted_files_eq_nil _ now₁ walkFiles hfile
    have hle := find_unregistered_links_eq_nil _ now₁ walkLinks hlink
    unfold encrypt_all
    simp only [Store.register, Store.lastTimestamp] at hfe hle ⊢
    simp [hfe, hle, encryptFilesLoop, encryptLinksLoop]

/-- C2 witness: one fresh file `a` and one fresh link `l` encrypted at time
5; the second run at time 9, re-reading watermark 5, only advances the
watermark and leaves the register untouched. -/
theorem claim_C2_witness :
    encrypt_all { cfgW with last_timestamp := 5 } (fun _ => true) namesW 9
        [⟨['a'], 3, false⟩] [⟨['l'], 2, ['t']⟩]
        ⟨[(['a'], ⟨['a'], ['n'], ['m'], false, none⟩),
          (['l'], ⟨['l'], [], ['m'], true, some ['t']⟩)], 5⟩
      = .ok (⟨[(['a'], ⟨['a'], ['n'], ['m'], false, none⟩),
               (['l'], ⟨['l'], [], ['m'], true, some ['t']⟩)], 9⟩,
             [Event.updateLastTimestamp 9]) :=
  claim_C2 cfgW namesW namesW 5 9 [⟨['a'], 3, false⟩] [⟨['l'], 2, ['t']⟩]
    ⟨[], 0⟩
    ⟨[(['a'], ⟨['a'], ['n'], ['m'], false, none⟩),
      (['l'], ⟨['l'], [], ['m'], true, some ['t']⟩)], 5⟩
    [Event.updateLastTimestamp 5,
     Event.gpgEncrypt ['p', '/', 'a'] ['s', '/', 'n'],
     Event.registerRow ['a'] ['n'] ['m'] false none,
     Event.registerRow ['l'] [] ['m'] true (some ['t'])]
    (by decide) (by decide) rfl
